import Mathlib

/-!
Verification of the govici message codec, message tree, and schema mapper
(src/message.go) against its natural-language specification.

Go strings are byte strings; they are modelled as lists of naturals
(`Bytes`).  The Go `Message` struct holds an ordered `keys` slice plus a
`data` map whose domain always equals the set of keys (every mutation goes
through `addItem`, which appends to `keys` exactly when the key is new).
The pair is modelled as a single ordered association list: `keys` is the
list of first components and the map lookup is the first-match lookup.
`addItem`'s "overwrite the map entry, keep the key position" becomes an
in-place replacement; its "new key" path appends at the end, exactly as
the Go code appends to `keys`.
-/

namespace Govici

/-- Byte strings (Go `string` / `[]byte`), one natural per byte. -/
abbrev Bytes := List Nat

/-- ASCII string literals as byte strings. -/
def bs (s : String) : Bytes := s.data.map Char.toNat

/-- Element type codes from message.go (msgSectionStart .. msgListEnd). -/
def msgSectionStart : Nat := 1

/-- End a previously started section. -/
def msgSectionEnd : Nat := 2

/-- Define a value for a named key in the current section. -/
def msgKeyValue : Nat := 3

/-- Begin a named list for list items. -/
def msgListStart : Nat := 4

/-- Define an unnamed item value in the current list. -/
def msgListItem : Nat := 5

/-- End a previously started list. -/
def msgListEnd : Nat := 6

/-- A message element: the three supported Go types `string`, `[]string`
and `*Message`.  `sect` holds the entries of a nested message.  A Go nil
`[]string` and an empty `[]string` both denote the empty sequence and are
both modelled as `list []` (the message model is about abstract byte-string
sequences). -/
inductive Element where
  | value (s : Bytes)
  | list (items : List Bytes)
  | sect (entries : List (Bytes × Element))

/-- A message: ordered association list of key/element entries
(see the module comment for the correspondence with the Go struct). -/
abbrev Message := List (Bytes × Element)

/-- Error kinds of message.go.  `commandFailed` carries the raw
`m.data["errmsg"]` lookup that the Go code formats into the error text. -/
inductive VErr where
  | encoding
  | decoding
  | badKey
  | badValue
  | endOfBuffer
  | expectedBeginning
  | unsupportedType
  | marshalUnsupportedType
  | unmarshalBadType
  | unmarshalTypeMismatch
  | unmarshalNonMessage
  | commandFailed (errmsg : Option Element)
  | goPanic

/-- Which error kinds are `errMalformedMessage` sub-kinds (wrapped with
the malformed-message base error in message.go). -/
def VErr.isMalformed : VErr → Bool
  | .badKey => true
  | .badValue => true
  | .endOfBuffer => true
  | .expectedBeginning => true
  | _ => false

/-- The possible dynamic types of a Go `interface{}` handed to
`Message.addItem`, grouped by the branches of its `reflect.Kind` switch:
a string, a `[]string`, a `*Message`, a slice or array that is not a
`[]string`, a pointer that is not a `*Message`, or any other kind. -/
inductive GoValue where
  | str (s : Bytes)
  | strSlice (l : List Bytes)
  | msgPtr (entries : List (Bytes × Element))
  | sliceOther
  | ptrOther
  | otherKind

/-- Map-write plus key-bookkeeping of `addItem`'s success path:
overwrite in place if the key exists, else append. -/
def setEntry (m : Message) (key : Bytes) (e : Element) : Message :=
  match m with
  | [] => [(key, e)]
  | (k, e0) :: tl => if k = key then (key, e) :: tl else (k, e0) :: setEntry tl key e

/-- Message.addItem.  Returns the post-call message state together with
the returned error: on every error branch the Go code returns before
writing to `m.data` or `m.keys`, so the state is the input message. -/
def addItem (m : Message) (key : Bytes) (value : GoValue) : Message × Option VErr :=
  match value with
  | .str s => (setEntry m key (.value s), none)
  | .strSlice l => (setEntry m key (.list l), none)
  | .msgPtr entries => (setEntry m key (.sect entries), none)
  | .sliceOther => (m, some .unsupportedType)
  | .ptrOther => (m, some .unsupportedType)
  | .otherKind => (m, some .unsupportedType)

/-- Message.Get: map lookup (nil when absent). -/
def get (m : Message) (key : Bytes) : Option Element :=
  match m with
  | [] => none
  | (k, e) :: tl => if k = key then some e else get tl key

/-- Message.Keys. -/
def keys (m : Message) : List Bytes := m.map Prod.fst

/-- Message.Err: fails iff the message has a "success" entry whose Go
interface comparison with the string "yes" is inequality, i.e. any entry
that is not the Value "yes".  The carried payload is the raw
`m.data["errmsg"]` lookup. -/
def Err (m : Message) : Option VErr :=
  match get m (bs "success") with
  | none => none
  | some (.value s) =>
      if s = bs "yes" then none else some (.commandFailed (get m (bs "errmsg")))
  | some _ => some (.commandFailed (get m (bs "errmsg")))

/-- Go's fmt %v rendering of the `interface{}` value carried in the
command-failed error: "<nil>" for an absent field, the contents for a
string.  The rendering of a `[]string` or `*Message` payload depends on
Go runtime state (pointer formatting) and is left unmodelled. -/
def fmtErrmsg : Option Element → Option Bytes
  | none => some (bs "<nil>")
  | some (.value s) => some s
  | some _ => none

/-- Big-endian 16-bit length field, as written by
`binary.BigEndian.PutUint16(vl, uint16(n))`: the cast wraps mod 2^16. -/
def u16be (n : Nat) : Bytes := [n / 256 % 256, n % 256]

/-- Message.encodeKeyValue.  The key length is written with
`uint8(len(key))`, which wraps mod 256; there is no bounds check.
Writes to the in-memory buffer cannot fail, so the Go error branches
are dead and the function is total. -/
def encodeKeyValue (key value : Bytes) : Bytes :=
  msgKeyValue :: (key.length % 256) :: (key ++ (u16be value.length ++ value))

/-- Item loop of Message.encodeList. -/
def encodeListItems : List Bytes → Bytes
  | [] => []
  | i :: tl => msgListItem :: (u16be i.length ++ (i ++ encodeListItems tl))

/-- Message.encodeList (same wrapping one-byte key length). -/
def encodeList (key : Bytes) (l : List Bytes) : Bytes :=
  msgListStart :: (key.length % 256) :: (key ++ (encodeListItems l ++ [msgListEnd]))

mutual

/-- The per-element kind switch shared verbatim by Message.encode and
Message.encodeSection (both dispatch on the element's reflect.Kind to
encodeKeyValue / encodeList / encodeSection). -/
def encodeElement (k : Bytes) (e : Element) : Bytes :=
  match e with
  | .value v => encodeKeyValue k v
  | .list l => encodeList k l
  | .sect s => encodeSection k s

/-- Message.encodeSection. -/
def encodeSection (key : Bytes) (s : List (Bytes × Element)) : Bytes :=
  msgSectionStart :: (key.length % 256) :: (key ++ (encodeEntries s ++ [msgSectionEnd]))

/-- The ordered-iteration loop of Message.encode / encodeSection:
concatenate the element encodings in key order. -/
def encodeEntries : List (Bytes × Element) → Bytes
  | [] => []
  | (k, e) :: tl => encodeElement k e ++ encodeEntries tl

end

/-- Message.encode. -/
def encode (m : Message) : Bytes := encodeEntries m

/-- Message.decodeKeyValue, on the bytes following the msgKeyValue type
byte.  Reads the one-byte key length, the key (errBadKey on shortage),
the two-byte value length (errEndOfBuffer if fewer than two bytes
remain), and the value (errBadValue on shortage); then addItem (whose
error, impossible for a string, would be wrapped in errDecoding).
Returns the updated message and the byte count keyLen+valueLen+3. -/
def decodeKeyValue (m : Message) (data : Bytes) : Except VErr (Message × Nat) :=
  match data with
  | [] => .error .decoding
  | n :: rest =>
    let key := rest.take n
    if key.length ≠ n then .error .badKey
    else
      match rest.drop n with
      | hi :: lo :: rest2 =>
        let valueLen := 256 * hi + lo
        let value := rest2.take valueLen
        if value.length ≠ valueLen then .error .badValue
        else
          match addItem m key (.str value) with
          | (m', none) => .ok (m', n + valueLen + 3)
          | (_, some _) => .error .decoding
      | _ => .error .endOfBuffer

/-- Item loop of Message.decodeList, viewed on the unread byte stream
(whose head is the byte the Go loop has just read with ReadByte; a
ReadByte at end of buffer yields io.EOF, wrapped as the generic
errDecoding).  cnt mirrors the Go running count, which has already
accounted for every byte read so far including the current head. -/
def decodeListBody (acc : List Bytes) (cnt : Nat) (stream : Bytes) :
    Except VErr (List Bytes × Nat) :=
  match stream with
  | [] => .error .decoding
  | b :: buf =>
    if b = msgListEnd then .ok (acc, cnt)
    else if b ≠ msgListItem then .error .expectedBeginning
    else
      match buf with
      | hi :: lo :: rest =>
        let valueLen := 256 * hi + lo
        let value := rest.take valueLen
        if value.length ≠ valueLen then .error .badValue
        else decodeListBody (acc ++ [value]) (cnt + valueLen + 3) (rest.drop valueLen)
      | _ => .error .endOfBuffer
termination_by stream.length
decreasing_by
  simp only [List.length_cons, List.length_drop]
  omega

/-- Message.decodeList: key header, then the item loop starting with
count keyLen+2; on success addItem (its error, impossible for a
[]string, would be wrapped in errDecoding). -/
def decodeList (m : Message) (data : Bytes) : Except VErr (Message × Nat) :=
  match data with
  | [] => .error .decoding
  | n :: rest =>
    let key := rest.take n
    if key.length ≠ n then .error .badKey
    else
      match decodeListBody [] (n + 2) (rest.drop n) with
      | .error e => .error e
      | .ok (l, cnt) =>
        match addItem m key (.strSlice l) with
        | (m', none) => .ok (m', cnt)
        | (_, some _) => .error .decoding

mutual

/-- Message.decodeSection: key header, then the element loop starting
with count keyLen+2; on success addItem (whose error the Go code
returns unwrapped). -/
def decodeSection (m : Message) (data : Bytes) : Except VErr (Message × Nat) :=
  match data with
  | [] => .error .decoding
  | n :: rest =>
    let key := rest.take n
    if key.length ≠ n then .error .badKey
    else
      match decodeSectionBody [] (n + 2) (rest.drop n) with
      | .error e => .error e
      | .ok (s, cnt) =>
        match addItem m key (.msgPtr s) with
        | (m', none) => .ok (m', cnt)
        | (_, some e) => .error e
termination_by data.length
decreasing_by
  simp only [List.length_cons, List.length_drop]
  omega

/-- Element loop of Message.decodeSection, on the unread byte stream
(head = the byte just read; ReadByte at end of buffer is the generic
errDecoding).  The switch dispatches on msgKeyValue / msgListStart /
msgSectionStart and rejects any other byte (barring msgSectionEnd,
which ends the loop) with errExpectedBeginning. -/
def decodeSectionBody (sec : Message) (cnt : Nat) (stream : Bytes) :
    Except VErr (Message × Nat) :=
  match stream with
  | [] => .error .decoding
  | b :: buf =>
    if b = msgSectionEnd then .ok (sec, cnt)
    else
      match
        (if b = msgKeyValue then decodeKeyValue sec buf
         else if b = msgListStart then decodeList sec buf
         else if b = msgSectionStart then decodeSection sec buf
         else .error .expectedBeginning) with
      | .error e => .error e
      | .ok (sec', n) => decodeSectionBody sec' (cnt + n + 1) (buf.drop n)
termination_by stream.length
decreasing_by
  all_goals simp only [List.length_cons, List.length_drop]
  all_goals omega

end

set_option linter.unusedVariables false in
/-- Body of the Message.decode loop: b is the byte already read, buf the
rest of the buffer.  The loop runs only while the buffer is non-empty;
the switch has no default case, so a byte that is not msgKeyValue,
msgListStart or msgSectionStart is silently skipped; after an element
the next type byte is read (end of buffer = io.EOF, tolerated, ending
the loop). -/
def decodeLoop (m : Message) (b : Nat) (buf : Bytes) : Except VErr Message :=
  match buf with
  | [] => .ok m
  | b2 :: rest2 =>
    if b = msgKeyValue then
      match decodeKeyValue m (b2 :: rest2) with
      | .error e => .error e
      | .ok (m', n) =>
        match h : (b2 :: rest2).drop n with
        | [] => .ok m'
        | b' :: buf' => decodeLoop m' b' buf'
    else if b = msgListStart then
      match decodeList m (b2 :: rest2) with
      | .error e => .error e
      | .ok (m', n) =>
        match h : (b2 :: rest2).drop n with
        | [] => .ok m'
        | b' :: buf' => decodeLoop m' b' buf'
    else if b = msgSectionStart then
      match decodeSection m (b2 :: rest2) with
      | .error e => .error e
      | .ok (m', n) =>
        match h : (b2 :: rest2).drop n with
        | [] => .ok m'
        | b' :: buf' => decodeLoop m' b' buf'
    else decodeLoop m b2 rest2
termination_by buf.length
decreasing_by
  all_goals
    first
    | (have hlen := congrArg List.length h
       simp only [List.length_cons, List.length_drop] at hlen ⊢
       omega)
    | (simp only [List.length_cons]; omega)

/-- Message.decode.  An empty buffer reads io.EOF before the first
element (tolerated): an empty payload is a valid empty message. -/
def decode (m : Message) (data : Bytes) : Except VErr Message :=
  match data with
  | [] => .ok m
  | b :: buf => decodeLoop m b buf

mutual

/-- Well-formedness of a single element, following the spec: values and
list items are at most 65535 bytes; a section body is a well-formed
message (keys 1-255 bytes, no duplicate keys: the key-uniqueness is the
structural invariant of the Go Message, whose keys slice mirrors the
domain of its data map). -/
def wfElement : Element → Bool
  | .value v => decide (v.length ≤ 65535)
  | .list items => items.all (fun i => decide (i.length ≤ 65535))
  | .sect entries => decide ((entries.map Prod.fst).Nodup) && wfEntries entries

/-- Well-formedness of an entry list: each key is 1-255 bytes and each
element is well-formed. -/
def wfEntries : List (Bytes × Element) → Bool
  | [] => true
  | (k, e) :: tl =>
      (decide (1 ≤ k.length) && decide (k.length ≤ 255)) && wfElement e && wfEntries tl

end

/-- A well-formed Message: distinct keys (Go Message invariant) and
well-formed entries at every level. -/
def wfMessage (m : Message) : Bool :=
  decide ((m.map Prod.fst).Nodup) && wfEntries m

/-- The wire type byte of an element's encoding. -/
def elemType : Element → Nat
  | .value _ => msgKeyValue
  | .list _ => msgListStart
  | .sect _ => msgSectionStart

/-- The bytes of an element's encoding after the type byte. -/
def elemBody (k : Bytes) (e : Element) : Bytes :=
  match e with
  | .value v => (k.length % 256) :: (k ++ (u16be v.length ++ v))
  | .list l => (k.length % 256) :: (k ++ (encodeListItems l ++ [msgListEnd]))
  | .sect s => (k.length % 256) :: (k ++ (encodeEntries s ++ [msgSectionEnd]))

theorem encodeElement_eq (k : Bytes) (e : Element) :
    encodeElement k e = elemType e :: elemBody k e := by
  cases e <;>
    simp [encodeElement, encodeKeyValue, encodeList, encodeSection, elemType, elemBody]

/-- Folding the entries of a decoded section or message into the
accumulator, in wire order, as successive addItem calls do. -/
def foldSet (acc : Message) (es : List (Bytes × Element)) : Message :=
  es.foldl (fun a p => setEntry a p.1 p.2) acc

theorem setEntry_of_not_mem (m : Message) (k : Bytes) (e : Element)
    (h : k ∉ keys m) : setEntry m k e = m ++ [(k, e)] := by
  induction m with
  | nil => rfl
  | cons hd tl ih =>
    obtain ⟨k0, e0⟩ := hd
    simp only [keys, List.map_cons, List.mem_cons] at h
    push_neg at h
    simp only [setEntry, if_neg (Ne.symm h.1), List.cons_append]
    rw [ih h.2]

theorem keys_setEntry_of_mem (m : Message) (k : Bytes) (e : Element)
    (h : k ∈ keys m) : keys (setEntry m k e) = keys m := by
  induction m with
  | nil => simp [keys] at h
  | cons hd tl ih =>
    obtain ⟨k0, e0⟩ := hd
    simp only [keys, List.map_cons, List.mem_cons] at h
    by_cases hk : k0 = k
    · simp [setEntry, hk, keys]
    · rcases h with h | h
      · exact absurd h.symm hk
      · simp only [setEntry, if_neg hk, keys, List.map_cons]
        rw [show List.map Prod.fst (setEntry tl k e) = keys (setEntry tl k e) from rfl,
          ih h]
        rfl

theorem get_setEntry_self (m : Message) (k : Bytes) (e : Element) :
    get (setEntry m k e) k = some e := by
  induction m with
  | nil => simp [setEntry, get]
  | cons hd tl ih =>
    obtain ⟨k0, e0⟩ := hd
    by_cases hk : k0 = k
    · simp [setEntry, hk, get]
    · simp [setEntry, hk, get, ih]

theorem foldSet_append (acc : Message) (es : List (Bytes × Element))
    (hnd : (es.map Prod.fst).Nodup)
    (hdisj : ∀ k ∈ es.map Prod.fst, k ∉ keys acc) :
    foldSet acc es = acc ++ es := by
  induction es generalizing acc with
  | nil => simp [foldSet]
  | cons hd tl ih =>
    obtain ⟨k, e⟩ := hd
    simp only [List.map_cons, List.nodup_cons] at hnd
    have hk : k ∉ keys acc := hdisj k (by simp)
    simp only [foldSet, List.foldl_cons]
    rw [show (setEntry acc k e) = acc ++ [(k, e)] from setEntry_of_not_mem acc k e hk]
    rw [show tl.foldl (fun a p => setEntry a p.1 p.2) (acc ++ [(k, e)]) =
      foldSet (acc ++ [(k, e)]) tl from rfl]
    rw [ih _ hnd.2]
    · simp
    · intro k' hk'
      simp only [keys, List.map_append, List.mem_append, List.map_cons]
      push_neg
      constructor
      · exact hdisj k' (by simp [hk'])
      · simp only [List.map_nil, List.mem_singleton]
        intro hc
        exact hnd.1 (hc ▸ hk')

theorem foldSet_nil_eq (es : List (Bytes × Element))
    (hnd : (es.map Prod.fst).Nodup) : foldSet [] es = es := by
  rw [foldSet_append [] es hnd (by intro k _; simp [keys])]
  rfl

theorem u16be_val (n : Nat) (h : n ≤ 65535) :
    256 * (n / 256 % 256) + n % 256 = n := by
  have h1 : n / 256 < 256 := by omega
  rw [Nat.mod_eq_of_lt h1]
  exact Nat.div_add_mod n 256

/-- decodeKeyValue consumes exactly the body of an encoded key-value
pair, adds the pair, and reports the Go byte count. -/
theorem decodeKeyValue_spec (m : Message) (k v rest : Bytes)
    (hk : k.length ≤ 255) (hv : v.length ≤ 65535) :
    decodeKeyValue m (elemBody k (.value v) ++ rest) =
      .ok (setEntry m k (.value v), k.length + v.length + 3) := by
  have hk' : k.length % 256 = k.length := Nat.mod_eq_of_lt (by omega)
  simp only [elemBody, u16be, hk', List.cons_append, List.append_assoc]
  simp only [decodeKeyValue]
  rw [List.take_left, List.drop_left]
  simp only [ne_eq, not_true_eq_false, if_false, ite_false, List.nil_append]
  rw [u16be_val v.length hv, List.take_left]
  simp [addItem]

theorem encodeEntries_nil : encodeEntries [] = [] := by
  simp [encodeEntries]

theorem encodeEntries_cons (k : Bytes) (e : Element) (tl : List (Bytes × Element)) :
    encodeEntries ((k, e) :: tl) = encodeElement k e ++ encodeEntries tl := by
  simp [encodeEntries]

theorem elemBody_value_length (k v : Bytes) :
    (elemBody k (.value v)).length = k.length + v.length + 3 := by
  simp [elemBody, u16be]
  omega

theorem elemBody_list_length (k : Bytes) (l : List Bytes) :
    (elemBody k (.list l)).length = k.length + 2 + (encodeListItems l).length := by
  simp [elemBody]
  omega

theorem elemBody_sect_length (k : Bytes) (s : List (Bytes × Element)) :
    (elemBody k (.sect s)).length = k.length + 2 + (encodeEntries s).length := by
  simp [elemBody]
  omega

/-- The list-item loop consumes an encoded item sequence up to its
msgListEnd marker, appends the items in order, and adds the consumed
byte count to the running count. -/
theorem decodeListBody_spec (items : List Bytes)
    (hitems : ∀ i ∈ items, i.length ≤ 65535) (acc : List Bytes) (cnt : Nat)
    (rest : Bytes) :
    decodeListBody acc cnt (encodeListItems items ++ (msgListEnd :: rest)) =
      .ok (acc ++ items, cnt + (encodeListItems items).length) := by
  induction items generalizing acc cnt with
  | nil =>
    rw [show encodeListItems [] = [] by simp [encodeListItems], List.nil_append]
    unfold decodeListBody
    simp
  | cons i tl ih =>
    have hi : i.length ≤ 65535 := hitems i (by simp)
    have ih' := ih (fun j hj => hitems j (by simp [hj])) (acc ++ [i]) (cnt + i.length + 3)
    rw [show encodeListItems (i :: tl) =
        msgListItem :: (u16be i.length ++ (i ++ encodeListItems tl)) by
      simp [encodeListItems]]
    simp only [u16be, List.cons_append, List.append_assoc, List.nil_append]
    unfold decodeListBody
    simp only [msgListItem, msgListEnd] at ih' ⊢
    norm_num
    simp only [u16be_val i.length hi, List.take_left, List.drop_left, ne_eq,
      not_true_eq_false, if_false, ite_false]
    rw [ih']
    simp only [Except.ok.injEq, Prod.mk.injEq, List.append_assoc, List.cons_append,
      List.singleton_append, List.nil_append, List.length_cons, List.length_append]
    rw [if_neg (by omega)]
    simp only [Except.ok.injEq, Prod.mk.injEq]
    exact ⟨trivial, by omega⟩

/-- decodeList consumes exactly the body of an encoded list element,
adds the list, and reports the Go byte count. -/
theorem decodeList_spec (m : Message) (k : Bytes) (l : List Bytes) (rest : Bytes)
    (hk : k.length ≤ 255) (hl : ∀ i ∈ l, i.length ≤ 65535) :
    decodeList m (elemBody k (.list l) ++ rest) =
      .ok (setEntry m k (.list l), k.length + 2 + (encodeListItems l).length) := by
  have hk' : k.length % 256 = k.length := Nat.mod_eq_of_lt (by omega)
  simp only [elemBody, hk', List.cons_append, List.append_assoc, List.singleton_append,
    List.nil_append]
  simp only [decodeList]
  rw [List.take_left, List.drop_left]
  simp only [ne_eq, not_true_eq_false, if_false, ite_false]
  rw [decodeListBody_spec l hl [] (k.length + 2) rest]
  simp [addItem]

theorem foldSet_cons (sec : Message) (k : Bytes) (e : Element)
    (tl : List (Bytes × Element)) :
    foldSet sec ((k, e) :: tl) = foldSet (setEntry sec k e) tl := rfl

mutual

/-- decodeSection consumes exactly the body of an encoded section
element, adds the decoded section, and reports the Go byte count. -/
theorem decodeSection_spec (s : List (Bytes × Element)) (hs : wfMessage s = true)
    (m : Message) (k : Bytes) (rest : Bytes) (hk : k.length ≤ 255) :
    decodeSection m (elemBody k (.sect s) ++ rest) =
      .ok (setEntry m k (.sect s), k.length + 2 + (encodeEntries s).length) := by
  have hk' : k.length % 256 = k.length := Nat.mod_eq_of_lt (by omega)
  have hs' := hs
  simp only [wfMessage, Bool.and_eq_true, decide_eq_true_eq] at hs'
  have hbody := decodeSectionBody_spec s hs'.2 [] (k.length + 2) rest
  simp only [elemBody, hk', List.cons_append, List.append_assoc, List.singleton_append,
    List.nil_append]
  simp only [decodeSection]
  rw [List.take_left, List.drop_left]
  simp only [ne_eq, not_true_eq_false, if_false, ite_false]
  rw [hbody, foldSet_nil_eq s hs'.1]
  simp [addItem]
termination_by sizeOf s * 2 + 1
decreasing_by
  omega

/-- The section-element loop consumes an encoded entry sequence up to
its msgSectionEnd marker, adds the entries in order, and adds the
consumed byte count to the running count. -/
theorem decodeSectionBody_spec (es : List (Bytes × Element)) (hes : wfEntries es = true)
    (sec : Message) (cnt : Nat) (rest : Bytes) :
    decodeSectionBody sec cnt (encodeEntries es ++ (msgSectionEnd :: rest)) =
      .ok (foldSet sec es, cnt + (encodeEntries es).length) := by
  match es with
  | [] =>
    rw [encodeEntries_nil, List.nil_append]
    unfold decodeSectionBody
    simp [foldSet]
  | (k, Element.value v) :: tl =>
    have hes' := hes
    simp only [wfEntries, Bool.and_eq_true, decide_eq_true_eq] at hes'
    have hk : k.length ≤ 255 := hes'.1.1.2
    have he : wfElement (Element.value v) = true := hes'.1.2
    have htl : wfEntries tl = true := hes'.2
    rw [encodeEntries_cons, List.append_assoc, encodeElement_eq, List.cons_append]
    · have hv : v.length ≤ 65535 := by
        simpa [wfElement] using he
      unfold decodeSectionBody
      rw [decodeKeyValue_spec sec k v _ hk hv]
      simp only [elemType, msgKeyValue, msgSectionEnd, msgSectionStart, msgListStart]
      norm_num
      rw [show k.length + v.length + 3 = (elemBody k (.value v)).length from
        (elemBody_value_length k v).symm]
      rw [List.drop_left]
      have hrec := decodeSectionBody_spec tl htl (setEntry sec k (.value v))
        (cnt + (elemBody k (.value v)).length + 1) rest
      simp only [msgSectionEnd] at hrec
      rw [hrec, foldSet_cons]
      simp only [Except.ok.injEq, Prod.mk.injEq, List.length_cons, List.length_append]
      exact ⟨trivial, by omega⟩
  | (k, Element.list l) :: tl =>
    have hes' := hes
    simp only [wfEntries, Bool.and_eq_true, decide_eq_true_eq] at hes'
    have hk : k.length ≤ 255 := hes'.1.1.2
    have he : wfElement (Element.list l) = true := hes'.1.2
    have htl : wfEntries tl = true := hes'.2
    rw [encodeEntries_cons, List.append_assoc, encodeElement_eq, List.cons_append]
    · have hl : ∀ i ∈ l, i.length ≤ 65535 := by
        simpa [wfElement, List.all_eq_true] using he
      unfold decodeSectionBody
      rw [decodeList_spec sec k l _ hk hl]
      simp only [elemType, msgKeyValue, msgSectionEnd, msgSectionStart, msgListStart]
      norm_num
      rw [show k.length + 2 + (encodeListItems l).length = (elemBody k (.list l)).length
        from (elemBody_list_length k l).symm]
      rw [List.drop_left]
      have hrec := decodeSectionBody_spec tl htl (setEntry sec k (.list l))
        (cnt + (elemBody k (.list l)).length + 1) rest
      simp only [msgSectionEnd] at hrec
      rw [hrec, foldSet_cons]
      simp only [Except.ok.injEq, Prod.mk.injEq, List.length_cons, List.length_append]
      exact ⟨trivial, by omega⟩
  | (k, Element.sect s') :: tl =>
    have hes' := hes
    simp only [wfEntries, Bool.and_eq_true, decide_eq_true_eq] at hes'
    have hk : k.length ≤ 255 := hes'.1.1.2
    have he : wfElement (Element.sect s') = true := hes'.1.2
    have htl : wfEntries tl = true := hes'.2
    rw [encodeEntries_cons, List.append_assoc, encodeElement_eq, List.cons_append]
    · have hsub : wfMessage s' = true := by
        simp only [wfElement, Bool.and_eq_true, decide_eq_true_eq] at he
        simp only [wfMessage, Bool.and_eq_true, decide_eq_true_eq]
        exact he
      unfold decodeSectionBody
      rw [decodeSection_spec s' hsub sec k _ hk]
      simp only [elemType, msgKeyValue, msgSectionEnd, msgSectionStart, msgListStart]
      norm_num
      rw [show k.length + 2 + (encodeEntries s').length = (elemBody k (.sect s')).length
        from (elemBody_sect_length k s').symm]
      rw [List.drop_left]
      have hrec := decodeSectionBody_spec tl htl (setEntry sec k (.sect s'))
        (cnt + (elemBody k (.sect s')).length + 1) rest
      simp only [msgSectionEnd] at hrec
      rw [hrec, foldSet_cons]
      simp only [Except.ok.injEq, Prod.mk.injEq, List.length_cons, List.length_append]
      exact ⟨trivial, by omega⟩
termination_by sizeOf es * 2
decreasing_by
  all_goals simp
  all_goals omega

end

/-- One step of the top-level decode loop on an encoded element: the
element is decoded and added, and the loop continues after it (reading
the next type byte, or stopping at end of buffer). -/
theorem decodeLoop_elem (m : Message) (k : Bytes) (e : Element) (REST : Bytes)
    (hk : k.length ≤ 255) (he : wfElement e = true) :
    decodeLoop m (elemType e) (elemBody k e ++ REST) =
      match REST with
      | [] => .ok (setEntry m k e)
      | b' :: buf' => decodeLoop (setEntry m k e) b' buf' := by
  cases e with
  | value v =>
    have hv : v.length ≤ 65535 := by simpa [wfElement] using he
    obtain ⟨b2, rest2, hbody⟩ : ∃ b2 rest2, elemBody k (Element.value v) = b2 :: rest2 :=
      ⟨_, _, rfl⟩
    rw [hbody, List.cons_append, decodeLoop.eq_def]
    simp only [elemType, msgKeyValue, msgListStart, msgSectionStart]
    norm_num
    rw [← List.cons_append, ← hbody, decodeKeyValue_spec m k v REST hk hv]
    norm_num
    rw [show k.length + v.length + 3 = (elemBody k (Element.value v)).length from
      (elemBody_value_length k v).symm, List.drop_left]
    cases REST <;> rfl
  | list l =>
    have hl : ∀ i ∈ l, i.length ≤ 65535 := by
      simpa [wfElement, List.all_eq_true] using he
    obtain ⟨b2, rest2, hbody⟩ : ∃ b2 rest2, elemBody k (Element.list l) = b2 :: rest2 :=
      ⟨_, _, rfl⟩
    rw [hbody, List.cons_append, decodeLoop.eq_def]
    simp only [elemType, msgKeyValue, msgListStart, msgSectionStart]
    norm_num
    rw [← List.cons_append, ← hbody, decodeList_spec m k l REST hk hl]
    norm_num
    rw [show k.length + 2 + (encodeListItems l).length = (elemBody k (Element.list l)).length
      from (elemBody_list_length k l).symm, List.drop_left]
    cases REST <;> rfl
  | sect s' =>
    have hsub : wfMessage s' = true := by
      simp only [wfElement, Bool.and_eq_true, decide_eq_true_eq] at he
      simp only [wfMessage, Bool.and_eq_true, decide_eq_true_eq]
      exact he
    obtain ⟨b2, rest2, hbody⟩ : ∃ b2 rest2, elemBody k (Element.sect s') = b2 :: rest2 :=
      ⟨_, _, rfl⟩
    rw [hbody, List.cons_append, decodeLoop.eq_def]
    simp only [elemType, msgKeyValue, msgListStart, msgSectionStart]
    norm_num
    rw [← List.cons_append, ← hbody, decodeSection_spec s' hsub m k REST hk]
    norm_num
    rw [show k.length + 2 + (encodeEntries s').length = (elemBody k (Element.sect s')).length
      from (elemBody_sect_length k s').symm, List.drop_left]
    cases REST <;> rfl

/-- Decoding the concatenated encodings of well-formed entries into any
message adds exactly those entries, in order. -/
theorem decode_entries (es : List (Bytes × Element)) :
    ∀ m : Message, wfEntries es = true →
      decode m (encodeEntries es) = .ok (foldSet m es) := by
  induction es with
  | nil =>
    intro m _
    rw [encodeEntries_nil]
    simp [decode, foldSet]
  | cons hd tl ih =>
    obtain ⟨k, e⟩ := hd
    intro m hes
    simp only [wfEntries, Bool.and_eq_true, decide_eq_true_eq] at hes
    have hk : k.length ≤ 255 := hes.1.1.2
    have he : wfElement e = true := hes.1.2
    have htl : wfEntries tl = true := hes.2
    rw [encodeEntries_cons, encodeElement_eq, List.cons_append]
    have hstep := decodeLoop_elem m k e (encodeEntries tl) hk he
    have ihm := ih (setEntry m k e) htl
    rw [show decode m (elemType e :: (elemBody k e ++ encodeEntries tl)) =
      decodeLoop m (elemType e) (elemBody k e ++ encodeEntries tl) from rfl]
    rw [hstep, foldSet_cons]
    cases hshape : encodeEntries tl with
    | nil =>
      rw [hshape] at ihm
      simp only [decode] at ihm
      exact ihm
    | cons b' buf' =>
      rw [hshape] at ihm
      simp only [decode] at ihm
      exact ihm

/-- Claim C1: for every well-formed Message m (every key 1-255 bytes,
every value and list item 0-65535 bytes, elements only
Value/List/Section at any nesting depth, and distinct keys at each
level, the structural invariant of the Go Message), decoding the bytes
produced by encode m into a fresh empty message yields a message
structurally equal to m, with equal key order at every level. -/
theorem encode_decode_roundtrip (m : Message) (h : wfMessage m = true) :
    decode [] (encode m) = .ok m := by
  have h' := h
  simp only [wfMessage, Bool.and_eq_true, decide_eq_true_eq] at h'
  rw [show encode m = encodeEntries m from rfl]
  rw [decode_entries m [] h'.2]
  rw [foldSet_nil_eq m h'.1]

/-- Witness for C1 at a concrete message with a value, a list and a
nested section. -/
theorem encode_decode_roundtrip_witness :
    wfMessage [(bs "a", Element.value (bs "x")),
      (bs "l", Element.list [bs "i", []]),
      (bs "s", Element.sect [(bs "b", Element.value (bs "y"))])] = true ∧
    decode [] (encode [(bs "a", Element.value (bs "x")),
      (bs "l", Element.list [bs "i", []]),
      (bs "s", Element.sect [(bs "b", Element.value (bs "y"))])]) =
      .ok [(bs "a", Element.value (bs "x")),
        (bs "l", Element.list [bs "i", []]),
        (bs "s", Element.sect [(bs "b", Element.value (bs "y"))])] := by
  have hwf : wfMessage [(bs "a", Element.value (bs "x")),
      (bs "l", Element.list [bs "i", []]),
      (bs "s", Element.sect [(bs "b", Element.value (bs "y"))])] = true := by
    simp [wfMessage, wfEntries, wfElement, bs]
  exact ⟨hwf, encode_decode_roundtrip _ hwf⟩

/-- The element stored for a supported Set argument (string, []string,
*Message), none for the unsupported kinds. -/
def goElem : GoValue → Option Element
  | .str s => some (.value s)
  | .strSlice l => some (.list l)
  | .msgPtr entries => some (.sect entries)
  | .sliceOther => none
  | .ptrOther => none
  | .otherKind => none

theorem keys_setEntry_of_not_mem (m : Message) (k : Bytes) (e : Element)
    (h : k ∉ keys m) : keys (setEntry m k e) = keys m ++ [k] := by
  rw [setEntry_of_not_mem m k e h]
  simp [keys]

/-- Claim C8: Set with a supported value succeeds; on an existing key it
replaces the stored element without changing the key sequence, and on a
new key it appends the key as the last element of keys(). -/
theorem set_spec (m : Message) (k : Bytes) (v : GoValue) (e : Element)
    (hv : goElem v = some e) :
    (addItem m k v).2 = none ∧
    (k ∈ keys m → keys (addItem m k v).1 = keys m) ∧
    (k ∉ keys m → keys (addItem m k v).1 = keys m ++ [k]) ∧
    get (addItem m k v).1 k = some e := by
  cases v <;> simp only [goElem, Option.some.injEq, reduceCtorEq] at hv <;> subst hv <;>
    exact ⟨rfl, fun h => keys_setEntry_of_mem m k _ h,
      fun h => keys_setEntry_of_not_mem m k _ h, get_setEntry_self m k _⟩

/-- Witness for C8: overwriting key "a" keeps the key order and stores
the new value; setting fresh key "b" appends it. -/
theorem set_spec_witness :
    keys (addItem [(bs "a", Element.value (bs "x"))] (bs "a")
        (GoValue.str (bs "y"))).1 = keys [(bs "a", Element.value (bs "x"))] ∧
    get (addItem [(bs "a", Element.value (bs "x"))] (bs "a")
        (GoValue.str (bs "y"))).1 (bs "a") = some (Element.value (bs "y")) ∧
    keys (addItem [(bs "a", Element.value (bs "x"))] (bs "b")
        (GoValue.str (bs "y"))).1 = keys [(bs "a", Element.value (bs "x"))] ++ [bs "b"] := by
  refine ⟨(set_spec [(bs "a", Element.value (bs "x"))] (bs "a")
      (GoValue.str (bs "y")) (Element.value (bs "y")) rfl).2.1 (by decide),
    (set_spec [(bs "a", Element.value (bs "x"))] (bs "a")
      (GoValue.str (bs "y")) (Element.value (bs "y")) rfl).2.2.2,
    (set_spec [(bs "a", Element.value (bs "x"))] (bs "b")
      (GoValue.str (bs "y")) (Element.value (bs "y")) rfl).2.2.1 (by decide)⟩

/-- Claim C10: when Set fails with UnsupportedType, the message state is
entirely unchanged (the Go code returns before any write). -/
theorem set_error_atomicity (m : Message) (k : Bytes) (v : GoValue)
    (h : (addItem m k v).2 = some VErr.unsupportedType) :
    (addItem m k v).1 = m := by
  cases v <;> first | rfl | simp [addItem] at h

/-- Witness for C10 at a value of a non-message kind. -/
theorem set_error_atomicity_witness :
    (addItem [(bs "a", Element.value (bs "x"))] (bs "b") GoValue.otherKind).2 =
      some VErr.unsupportedType ∧
    (addItem [(bs "a", Element.value (bs "x"))] (bs "b") GoValue.otherKind).1 =
      [(bs "a", Element.value (bs "x"))] := by
  exact ⟨rfl, set_error_atomicity _ _ _ rfl⟩

/-- Amended claim C6: check_success succeeds iff the message has no
"success" entry or that entry is the Value "yes" (a List or Section
entry named "success" also fails, Go comparing the interface value
against the string); on failure the carried payload is the raw "errmsg"
lookup, rendered by fmt as its contents when a Value and as "<nil>"
when absent. -/
theorem Err_spec (m : Message) :
    (Err m = none ↔ (get m (bs "success") = none ∨
       get m (bs "success") = some (Element.value (bs "yes")))) ∧
    (∀ er, Err m = some er →
       er = VErr.commandFailed (get m (bs "errmsg"))) ∧
    fmtErrmsg none = some (bs "<nil>") ∧
    (∀ s, fmtErrmsg (some (Element.value s)) = some s) := by
  refine ⟨?_, ?_, rfl, fun _ => rfl⟩
  all_goals rcases hs : get m (bs "success") with _ | el
  · simp [Err, hs]
  · cases el with
    | value s =>
      rcases eq_or_ne s (bs "yes") with hyes | hyes
      · subst hyes
        simp [Err, hs]
      · simp [Err, hs, hyes]
    | list l => simp [Err, hs]
    | sect s => simp [Err, hs]
  · simp [Err, hs]
  · cases el with
    | value s =>
      rcases eq_or_ne s (bs "yes") with hyes | hyes
      · subst hyes
        simp [Err, hs]
      · simp [Err, hs, hyes]
    | list l => simp [Err, hs]
    | sect s => simp [Err, hs]

/-- Witness for C6 (amended): a reply whose success field is the Value
"yes" passes check_success. -/
theorem Err_spec_witness :
    Err [(bs "success", Element.value (bs "yes"))] = none :=
  (Err_spec _).1.mpr (Or.inr (by simp [get]))

/-- Counterexample for C6 as stated: with success="no" and errmsg
absent, Err fails carrying the nil lookup, which fmt renders as
"<nil>", not as the empty string. -/
theorem Err_emptyText_cex :
    Err [(bs "success", Element.value (bs "no"))] =
      some (VErr.commandFailed none) ∧
    fmtErrmsg none = some (bs "<nil>") ∧ (bs "<nil>" : Bytes) ≠ [] := by
  refine ⟨by simp [Err, get, bs], rfl, by decide⟩

/-- Claim C3 evaluation: encode does not validate key length.  A
256-byte key is emitted with the wrapped one-byte length 0 (256 mod
256) and encoding succeeds; a zero-length key is emitted with length
byte 0 and encoding succeeds.  The claimed Encoding failure does not
exist in the code. -/
theorem encode_key_wrap :
    encode [(List.replicate 256 97, Element.value [])] =
      msgKeyValue :: 0 :: (List.replicate 256 97 ++ [0, 0]) ∧
    encode [(([] : Bytes), Element.value [])] = [msgKeyValue, 0, 0, 0] := by
  constructor
  · set_option maxRecDepth 4000 in
    simp [encode, encodeEntries, encodeElement, encodeKeyValue, u16be, msgKeyValue]
  · simp [encode, encodeEntries, encodeElement, encodeKeyValue, u16be, msgKeyValue]

/-- Amended claim C2: inside a section body a byte that is not an
element-start byte (and not the section end marker) fails with
ExpectedElementStart, and inside a list body a byte that is neither
msgListItem nor msgListEnd fails likewise; but at the top level the
decode loop has no default case, and an unrecognized byte is silently
skipped. -/
theorem elementStart_spec :
    (∀ (sec : Message) (cnt b : Nat) (buf : Bytes),
       b ≠ msgSectionStart → b ≠ msgSectionEnd → b ≠ msgKeyValue → b ≠ msgListStart →
       decodeSectionBody sec cnt (b :: buf) = .error .expectedBeginning) ∧
    (∀ (acc : List Bytes) (cnt b : Nat) (buf : Bytes),
       b ≠ msgListItem → b ≠ msgListEnd →
       decodeListBody acc cnt (b :: buf) = .error .expectedBeginning) ∧
    (∀ (m : Message) (b b2 : Nat) (buf2 : Bytes),
       b ≠ msgKeyValue → b ≠ msgListStart → b ≠ msgSectionStart →
       decodeLoop m b (b2 :: buf2) = decodeLoop m b2 buf2) := by
  refine ⟨?_, ?_, ?_⟩
  · intro sec cnt b buf h1 h2 h3 h4
    rw [decodeSectionBody.eq_def]
    simp [h1, h2, h3, h4]
  · intro acc cnt b buf h1 h2
    rw [decodeListBody.eq_def]
    simp [h1, h2]
  · intro m b b2 buf2 h1 h2 h3
    rw [decodeLoop.eq_def]
    simp [h1, h2, h3]

/-- Witness for C2 (amended) at byte 9 in a section body and a list
body, and byte 9 skipped at top level. -/
theorem elementStart_witness :
    decodeSectionBody [] 0 [9] = .error .expectedBeginning ∧
    decodeListBody [] 0 [9] = .error .expectedBeginning ∧
    decodeLoop [] 9 [7] = decodeLoop [] 7 [] := by
  refine ⟨elementStart_spec.1 [] 0 9 [] (by decide) (by decide) (by decide) (by decide),
    elementStart_spec.2.1 [] 0 9 [] (by decide) (by decide),
    elementStart_spec.2.2 [] 9 7 [] (by decide) (by decide) (by decide)⟩

/-- Counterexample for C2 as stated: at the top level, byte 0 (not an
element-start byte) does not make decode fail; it is skipped and the
empty message is returned. -/
theorem decode_skips_unknown_byte_cex : decode [] [0, 0] = .ok [] := by
  simp [decode, decodeLoop, msgKeyValue, msgListStart, msgSectionStart]

/-- Amended claim C4: a declared key, value or list-item length that
exceeds the remaining bytes fails with MalformedMessage (BadKey,
BadValue, or EndOfBuffer for a truncated two-byte length field); but a
started section or list that reaches the end of the buffer where the
next type byte is expected fails with the generic Decoding error
(wrapped io.EOF), which is not a MalformedMessage sub-kind. -/
theorem malformed_lengths_spec :
    (∀ (m : Message) (n : Nat) (rest : Bytes), rest.length < n →
       decodeKeyValue m (n :: rest) = .error .badKey ∧
       decodeList m (n :: rest) = .error .badKey ∧
       decodeSection m (n :: rest) = .error .badKey) ∧
    (∀ (m : Message) (k : Bytes) (hi lo : Nat) (rest : Bytes),
       rest.length < 256 * hi + lo →
       decodeKeyValue m (k.length :: (k ++ (hi :: lo :: rest))) = .error .badValue) ∧
    (∀ (m : Message) (k : Bytes),
       decodeKeyValue m (k.length :: k) = .error .endOfBuffer) ∧
    (∀ (m : Message) (k : Bytes),
       decodeList m (k.length :: k) = .error .decoding ∧
       decodeSection m (k.length :: k) = .error .decoding) ∧
    (∀ (acc : List Bytes) (cnt hi lo : Nat) (rest : Bytes),
       rest.length < 256 * hi + lo →
       decodeListBody acc cnt (msgListItem :: hi :: lo :: rest) = .error .badValue) ∧
    (∀ (acc : List Bytes) (cnt : Nat) (buf : Bytes), buf.length < 2 →
       decodeListBody acc cnt (msgListItem :: buf) = .error .endOfBuffer) ∧
    (∀ (m : Message) (k : Bytes) (hi lo : Nat) (rest : Bytes),
       rest.length < 256 * hi + lo →
       decodeList m (k.length :: (k ++ (msgListItem :: hi :: lo :: rest))) =
         .error .badValue) := by
  have hitem : ∀ (acc : List Bytes) (cnt hi lo : Nat) (rest : Bytes),
      rest.length < 256 * hi + lo →
      decodeListBody acc cnt (msgListItem :: hi :: lo :: rest) = .error .badValue := by
    intro acc cnt hi lo rest h
    unfold decodeListBody
    simp [msgListItem, msgListEnd, List.length_take]
    intro hc
    exfalso
    omega
  refine ⟨?_, ?_, ?_, ?_, hitem, ?_, ?_⟩
  · intro m n rest h
    have hne : (List.take n rest).length ≠ n := by
      simp only [List.length_take]
      omega
    refine ⟨?_, ?_, ?_⟩
    · simp only [decodeKeyValue]
      rw [if_pos hne]
    · simp only [decodeList]
      rw [if_pos hne]
    · simp only [decodeSection]
      rw [if_pos hne]
  · intro m k hi lo rest h
    have hne : (List.take (256 * hi + lo) rest).length ≠ 256 * hi + lo := by
      simp only [List.length_take]
      omega
    simp only [decodeKeyValue]
    rw [List.take_left, List.drop_left]
    simp only [ne_eq, not_true_eq_false, if_false, ite_false]
    rw [if_pos hne]
  · intro m k
    simp only [decodeKeyValue]
    rw [List.take_length, List.drop_length]
    simp
  · intro m k
    constructor
    · simp only [decodeList]
      rw [List.take_length, List.drop_length]
      simp only [ne_eq, not_true_eq_false, if_false, ite_false]
      rw [show decodeListBody [] (k.length + 2) [] = .error .decoding by
        rw [decodeListBody.eq_def]]
    · simp only [decodeSection]
      rw [List.take_length, List.drop_length]
      simp only [ne_eq, not_true_eq_false, if_false, ite_false]
      rw [show decodeSectionBody [] (k.length + 2) [] = .error .decoding by
        rw [decodeSectionBody.eq_def]]
  · intro acc cnt buf h
    rcases buf with _ | ⟨hi, _ | ⟨lo, r⟩⟩
    · unfold decodeListBody
      simp [msgListItem, msgListEnd]
    · unfold decodeListBody
      simp [msgListItem, msgListEnd]
    · simp only [List.length_cons] at h
      omega
  · intro m k hi lo rest h
    simp only [decodeList]
    rw [List.take_left, List.drop_left]
    simp only [ne_eq, not_true_eq_false, if_false, ite_false]
    rw [hitem [] (k.length + 2) hi lo rest h]

/-- Witness for C4 (amended) at concrete truncated inputs, one per
clause: key overrun, value overrun, truncated value-length field,
unterminated list and section, list-item overrun, truncated item-length
field, and the item overrun reached through decodeList. -/
theorem malformed_lengths_witness :
    decodeKeyValue [] [2, 0] = .error .badKey ∧
    decodeKeyValue [] [1, 107, 0, 5] = .error .badValue ∧
    decodeKeyValue [] [1, 107] = .error .endOfBuffer ∧
    decodeList [] [1, 107] = .error .decoding ∧
    decodeSection [] [1, 107] = .error .decoding ∧
    decodeListBody [] 0 [5, 0, 5] = .error .badValue ∧
    decodeListBody [] 0 [5, 0] = .error .endOfBuffer ∧
    decodeList [] [1, 107, 5, 0, 5] = .error .badValue := by
  refine ⟨(malformed_lengths_spec.1 [] 2 [0] (by decide)).1,
    malformed_lengths_spec.2.1 [] [107] 0 5 [] (by decide),
    malformed_lengths_spec.2.2.1 [] [107],
    (malformed_lengths_spec.2.2.2.1 [] [107]).1,
    (malformed_lengths_spec.2.2.2.1 [] [107]).2,
    malformed_lengths_spec.2.2.2.2.1 [] 0 0 5 [] (by decide),
    malformed_lengths_spec.2.2.2.2.2.1 [] 0 [0] (by decide),
    malformed_lengths_spec.2.2.2.2.2.2 [] [107] 0 5 [] (by decide)⟩

/-- Counterexample for C4 as stated: a started list that hits the end
of the buffer fails with the generic Decoding error, which is not one
of the MalformedMessage sub-kinds. -/
theorem unterminated_list_decoding_cex :
    decode [] [msgListStart, 1, 107] = .error .decoding ∧
    VErr.isMalformed .decoding = false := by
  constructor
  · simp [decode, decodeLoop, decodeList, decodeListBody, msgListStart,
      msgKeyValue, msgSectionStart]
  · rfl

/-- Amended claim C7: the encoding of a key-value element has length
4 + len(key) + len(value); the encoding of a list element has length
2 + len(key) + sum over items of (3 + len(item)) + 1; the encoding of
a section element has length 2 + len(key) + len(encode(body)) + 1
(the spec formulas for list and section count one extra byte). -/
theorem encode_length_spec :
    (∀ k v : Bytes, (encodeKeyValue k v).length = 4 + k.length + v.length) ∧
    (∀ (k : Bytes) (l : List Bytes),
       (encodeList k l).length =
         2 + k.length + (l.map (fun i => 3 + i.length)).sum + 1) ∧
    (∀ (k : Bytes) (s : List (Bytes × Element)),
       (encodeSection k s).length = 2 + k.length + (encode s).length + 1) := by
  have hitems : ∀ l : List Bytes,
      (encodeListItems l).length = (l.map (fun i => 3 + i.length)).sum := by
    intro l
    induction l with
    | nil => simp [encodeListItems]
    | cons i tl ih =>
      rw [show encodeListItems (i :: tl) =
          msgListItem :: (u16be i.length ++ (i ++ encodeListItems tl)) by
        simp [encodeListItems]]
      simp [u16be, ih]
      omega
  refine ⟨?_, ?_, ?_⟩
  · intro k v
    simp [encodeKeyValue, u16be]
    omega
  · intro k l
    simp [encodeList, hitems]
    omega
  · intro k s
    rw [show encode s = encodeEntries s from rfl]
    rw [show encodeSection k s = msgSectionStart :: (k.length % 256) ::
        (k ++ (encodeEntries s ++ [msgSectionEnd])) by simp [encodeSection]]
    simp
    omega

/-- Counterexample for C7 as stated: the two-item list of S2 encodes to
13 bytes, but the spec formula 3 + len(k) + sum(3 + len(i)) + 1 gives
14. -/
theorem encode_list_length_formula_cex :
    (encodeList (bs "ks") [bs "a", bs "b"]).length = 13 ∧
    3 + (bs "ks").length + ((3 + (bs "a").length) + (3 + (bs "b").length)) + 1 = 14 := by
  constructor
  · rw [show encodeList (bs "ks") [bs "a", bs "b"] =
        [4, 2] ++ bs "ks" ++ [5, 0, 1] ++ bs "a" ++ [5, 0, 1] ++ bs "b" ++ [6] by
      simp [encodeList, encodeListItems, u16be, bs, msgListStart, msgListItem, msgListEnd]]
    decide
  · decide

/-- The dynamic shapes of Go struct fields relevant to the schema
mapper: a string field, a []string field (none = the nil slice, which
IsNil treats as empty; a non-nil empty slice is some []), a *Message
field (none = nil pointer), an embedded struct field, and a pointer to
a struct (none = nil).  Other field kinds (ints, maps, arrays, ...)
fail MarshalUnsupportedType and are not modelled; unexported fields are
skipped by both mappers (CanInterface) and are not modelled. -/
inductive FieldVal where
  | str (s : Bytes)
  | strSlice (l : Option (List Bytes))
  | msgPtr (m : Option (List (Bytes × Element)))
  | structVal (r : List (Bytes × FieldVal))
  | structPtr (r : Option (List (Bytes × FieldVal)))

/-- A record field: its vici tag (the empty byte string when the tag is
absent, exactly what StructTag.Get returns then) and its value. -/
abbrev Field := Bytes × FieldVal

/-- A struct-shaped record, fields in declared order. -/
abbrev Record := List Field

/-- newMessageTag: a tag of "-" or "" yields the skip tag, whose name
field is the zero value "". -/
def messageTagName (tag : Bytes) : Bytes :=
  if tag = bs "-" ∨ tag = [] then [] else tag

/-- The skip flag of newMessageTag. -/
def messageTagSkip (tag : Bytes) : Bool :=
  decide (tag = bs "-" ∨ tag = [])

mutual

/-- emptyMessageElement: a slice is empty iff it IsNil (a non-nil empty
slice is not empty); a struct is empty iff all its fields are; any
other kind falls back to comparison with the zero value of its type
(the empty string, the nil pointer). -/
def emptyMessageElement : FieldVal → Bool
  | .str s => decide (s = [])
  | .strSlice l => l.isNone
  | .msgPtr p => p.isNone
  | .structVal r => emptyRecordFields r
  | .structPtr p => p.isNone

/-- The field fold of emptyMessageElement's struct case. -/
def emptyRecordFields : List (Bytes × FieldVal) → Bool
  | [] => true
  | (_, fv) :: tl => emptyMessageElement fv && emptyRecordFields tl

end

mutual

/-- Message.marshal over a struct's fields in declared order: skip
untagged fields, skip empty fields, otherwise marshalField. -/
def marshal (m : Message) (r : Record) : Except VErr Message :=
  match r with
  | [] => .ok m
  | (tag, fv) :: tl =>
    if messageTagSkip tag then marshal m tl
    else if emptyMessageElement fv then marshal m tl
    else
      match marshalField m tag fv with
      | .error e => .error e
      | .ok m' => marshal m' tl

/-- Message.marshalField.  A nil *Message field would be stored as-is
by addItem (unreachable from marshal: nil pointers are suppressed as
empty); a nil section is not representable here and the branch yields
the empty section.  A nil struct pointer would reach Go's marshal with
an Invalid kind and fail MarshalUnsupportedType (also unreachable from
marshal for the same reason). -/
def marshalField (m : Message) (name : Bytes) (fv : FieldVal) : Except VErr Message :=
  match fv with
  | .str s => .ok (setEntry m name (.value s))
  | .strSlice l => .ok (setEntry m name (.list (l.getD [])))
  | .msgPtr p => .ok (setEntry m name (.sect (p.getD [])))
  | .structVal r =>
    match marshal [] r with
    | .error e => .error e
    | .ok sec => .ok (setEntry m name (.sect sec))
  | .structPtr (some r) =>
    match marshal [] r with
    | .error e => .error e
    | .ok sec => .ok (setEntry m name (.sect sec))
  | .structPtr none => .error .marshalUnsupportedType

end

/-- MarshalMessage: marshal into a fresh message. -/
def MarshalMessage (r : Record) : Except VErr Message := marshal [] r

mutual

/-- The zero value of a field's type (reflect.New): empty string, nil
slice, nil pointers, recursively zero structs. -/
def zeroFieldVal : FieldVal → FieldVal
  | .str _ => .str []
  | .strSlice _ => .strSlice none
  | .msgPtr _ => .msgPtr none
  | .structVal r => .structVal (zeroRecord r)
  | .structPtr _ => .structPtr none

/-- The zero value of a struct type, field by field (tags belong to the
type and are unchanged). -/
def zeroRecord : Record → Record
  | [] => []
  | (tag, fv) :: tl => (tag, zeroFieldVal fv) :: zeroRecord tl

end

mutual

theorem zeroFieldVal_sizeOf (fv : FieldVal) : sizeOf (zeroFieldVal fv) ≤ sizeOf fv := by
  cases fv <;> simp [zeroFieldVal]
  case structVal r => have := zeroRecord_sizeOf r; omega
  all_goals (rename_i x; cases x <;> simp <;> omega)

theorem zeroRecord_sizeOf (r : Record) : sizeOf (zeroRecord r) ≤ sizeOf r := by
  cases r with
  | nil => simp [zeroRecord]
  | cons hd tl =>
    obtain ⟨tag, fv⟩ := hd
    have h1 := zeroFieldVal_sizeOf fv
    have h2 := zeroRecord_sizeOf tl
    simp [zeroRecord]
    omega

end

mutual

/-- Message.unmarshal into a record's fields in declared order.  The Go
code computes the field's messageTag but never consults its skip flag,
so a skipped (untagged or "-"-tagged) field looks up the tag name "",
and a message entry under the empty key is assigned to such a field. -/
def unmarshal (m : Message) (r : Record) : Except VErr Record :=
  match r with
  | [] => .ok []
  | (tag, fv) :: tl =>
    match get m (messageTagName tag) with
    | none =>
      match unmarshal m tl with
      | .error er => .error er
      | .ok tl' => .ok ((tag, fv) :: tl')
    | some e =>
      match unmarshalField fv e with
      | .error er => .error er
      | .ok fv' =>
        match unmarshal m tl with
        | .error er => .error er
        | .ok tl' => .ok ((tag, fv') :: tl')
termination_by sizeOf r * 2
decreasing_by
  all_goals simp
  all_goals omega

/-- Message.unmarshalField, dispatching on the target field's kind.  A
*Message field is assigned with reflect Set and no type check: a
non-Section element there panics in Go (goPanic).  A struct field is
rebuilt from the zero value (reflect.New) and recursively unmarshaled;
a struct-pointer field unmarshals into the existing pointee, and a nil
pointee fails the non-nil-pointer check of unmarshal (BadType). -/
def unmarshalField (fv : FieldVal) (e : Element) : Except VErr FieldVal :=
  match fv, e with
  | .str _, .value s => .ok (.str s)
  | .str _, _ => .error .unmarshalTypeMismatch
  | .strSlice _, .list l => .ok (.strSlice (some l))
  | .strSlice _, _ => .error .unmarshalTypeMismatch
  | .msgPtr _, .sect s => .ok (.msgPtr (some s))
  | .msgPtr _, _ => .error .goPanic
  | .structPtr (some r), .sect s =>
    match unmarshal s r with
    | .error er => .error er
    | .ok r' => .ok (.structPtr (some r'))
  | .structPtr none, .sect _ => .error .unmarshalBadType
  | .structPtr _, _ => .error .unmarshalNonMessage
  | .structVal r, .sect s =>
    match unmarshal s (zeroRecord r) with
    | .error er => .error er
    | .ok r' => .ok (.structVal r')
  | .structVal _, _ => .error .unmarshalNonMessage
termination_by sizeOf fv * 2 + 1
decreasing_by
  · simp
    omega
  · have := zeroRecord_sizeOf r
    simp
    omega

end

/-- UnmarshalMessage. -/
def UnmarshalMessage (m : Message) (r : Record) : Except VErr Record := unmarshal m r

theorem marshal_all_empty (r : Record) :
    ∀ m : Message, (∀ f ∈ r, emptyMessageElement f.2 = true) → marshal m r = .ok m := by
  induction r with
  | nil =>
    intro m _
    rw [show marshal m [] = .ok m by rw [marshal.eq_def]]
  | cons hd tl ih =>
    obtain ⟨tag, fv⟩ := hd
    intro m h
    have hfv : emptyMessageElement fv = true := h (tag, fv) (by simp)
    have htl : ∀ f ∈ tl, emptyMessageElement f.2 = true :=
      fun f hf => h f (by simp [hf])
    rw [marshal.eq_def]
    simp only [hfv, if_true, ite_true]
    split
    · exact ih m htl
    · exact ih m htl

/-- Amended claim C5: for every record all of whose fields are zero in
the code's sense - a byte string is zero when empty, a sequence only
when it is the nil sequence, a reference when nil, a nested record when
all its fields are zero - marshal yields an empty message; a non-nil
empty sequence is not zero and is marshaled as an empty List element. -/
theorem marshal_zero_record (r : Record)
    (h : ∀ f ∈ r, emptyMessageElement f.2 = true) :
    MarshalMessage r = .ok [] :=
  marshal_all_empty r [] h

/-- Witness for C5 (amended): a record with an empty string, a nil
slice, a nil message pointer, a recursively zero nested struct and a
nil struct pointer marshals to the empty message. -/
theorem marshal_zero_record_witness :
    MarshalMessage [(bs "a", FieldVal.str []),
      (bs "b", FieldVal.strSlice none),
      (bs "c", FieldVal.msgPtr none),
      (bs "d", FieldVal.structVal [(bs "e", FieldVal.str [])]),
      (bs "f", FieldVal.structPtr none)] = .ok [] := by
  apply marshal_zero_record
  intro f hf
  simp only [List.mem_cons, List.not_mem_nil, or_false] at hf
  rcases hf with rfl | rfl | rfl | rfl | rfl <;>
    simp [emptyMessageElement, emptyRecordFields]

/-- Counterexample for C5 as stated: a record whose only field is a
non-nil empty sequence is all-zero in the claim's sense (an empty
sequence counts as zero regardless of construction), yet marshal emits
it as an empty List element and the result is not the empty message. -/
theorem marshal_empty_slice_cex :
    MarshalMessage [(bs "l", FieldVal.strSlice (some []))] =
      .ok [(bs "l", Element.list [])] ∧
    [(bs "l", Element.list [])] ≠ ([] : Message) := by
  constructor
  · rw [MarshalMessage, marshal.eq_def]
    simp [messageTagSkip, emptyMessageElement, bs, marshalField, setEntry]
    rw [marshal.eq_def]
  · simp

/-- Claim C9 evaluation: unmarshal computes each field's messageTag but
never consults the skip flag, so an untagged field (tag name "") is
looked up as the empty key; a message entry under the empty key - legal
on the wire and constructible with Set - is assigned to the untagged
field, which the claim and the UnmarshalMessage documentation say must
be left untouched. -/
theorem unmarshal_untagged_field_overwritten :
    UnmarshalMessage [(([] : Bytes), Element.value (bs "x"))]
        [(([] : Bytes), FieldVal.str [])] =
      .ok [(([] : Bytes), FieldVal.str (bs "x"))] ∧
    FieldVal.str (bs "x") ≠ FieldVal.str [] := by
  constructor
  · rw [UnmarshalMessage, unmarshal.eq_def]
    simp [messageTagName, get, unmarshalField, bs]
    rw [unmarshal.eq_def]
  · simp [bs]

end Govici
